import Mathlib

/-!
Verification development for the Sink tokenizer (src/atom.rs, src/main.rs).

The tokenizer is a single-pass, character-at-a-time state machine.  The
active atom (a group or an in-progress leaf token) owns its enclosing
parent chain; consuming a character either keeps the atom active,
finalizes it into its parent's child list, or redispatches the character
to the newly active parent.

Embedding conventions:
* `Box<dyn Atom>` becomes the inductive `Atom`; `Group` is mutually
  inductive with it.  A finalized atom is stored with `parent = none`,
  exactly as the Rust code leaves the field after `Option::take`.
* The shared `Rc<RefCell<Vec<_>>>` child list is owned linearly by the
  active parent chain, so it is modelled as a plain `List Atom` field.
* `read_char` returns `Option Atom`; `none` models the `unwrap` panic on
  a missing parent.  No other operation can fail.
* `i64` arithmetic is modelled on `Int` with an explicit two's-complement
  wrap (`wrap64`), matching release-mode wrapping semantics; `i32`
  likewise (`wrap32`).
* The `f64` accumulator of `NumericLiteral` is modelled with exact
  rationals (`Rat`); the floating value never influences control flow.
-/

set_option maxRecDepth 8192

namespace Sink

/-- ASCII digit test, as `char::is_ascii_digit`. -/
def isAsciiDigit (c : Char) : Bool := decide (48 ≤ c.toNat ∧ c.toNat ≤ 57)

/-- ASCII alphabetic test, as `char::is_ascii_alphabetic`. -/
def isAsciiAlphabetic (c : Char) : Bool :=
  decide ((65 ≤ c.toNat ∧ c.toNat ≤ 90) ∨ (97 ≤ c.toNat ∧ c.toNat ≤ 122))

/-- ASCII alphanumeric test, as `char::is_ascii_alphanumeric`. -/
def isAsciiAlphanumeric (c : Char) : Bool := isAsciiDigit c || isAsciiAlphabetic c

/-- Numeric value of an ASCII digit, as `char::to_digit(10)` on a digit. -/
def digitVal (c : Char) : Int := (c.toNat : Int) - 48

/-- Two's-complement wrap-around into the `i64` range. -/
def wrap64 (z : Int) : Int :=
  (z + 9223372036854775808) % 18446744073709551616 - 9223372036854775808

/-- Two's-complement wrap-around into the `i32` range. -/
def wrap32 (z : Int) : Int := (z + 2147483648) % 4294967296 - 2147483648

/-- The double quote character (written via its code point). -/
def quoteChar : Char := Char.ofNat 34

/-- The single quote character (written via its code point). -/
def apostropheChar : Char := Char.ofNat 39

/-- The backslash character. -/
def backslashChar : Char := Char.ofNat 92

/-- The backtick character (written via its code point). -/
def backtickChar : Char := Char.ofNat 96

/-- `OPERATOR_SYMBOL`: the operator-symbol alphabet of atom.rs, listed in
the same order as the Rust string constant. -/
def OPERATOR_SYMBOL : List Char :=
  ['#', '@', '!', '%', '^', '&', '*', '-', '_', '+', '>', '<', '=', '/',
   backslashChar, '~', backtickChar, ',', '.', '|', '?', ':']

/-- `FINAL_OPERATOR`: the terminal-operator alphabet (just `;`). -/
def FINAL_OPERATOR : List Char := [';']

/-- The four group kinds of `GroupType`. -/
inductive GroupType : Type where
  | root
  | curly
  | square
  | curved

mutual
/-- The closed set of atom states; each constructor carries exactly the
fields of the corresponding Rust struct. -/
inductive Atom : Type where
  | group : Group → Atom
  | identifier : Option Group → String → Atom
  | stringLiteral : Option Group → String → Bool → Atom
  | integerLiteral : Option Group → Int → Atom
  | numericLiteral : Option Group → Rat → Int → Atom
  | operator : Option Group → String → Atom

/-- `Group`: optional owned parent, ordered child list, kind tag. -/
inductive Group : Type where
  | mk : Option Group → List Atom → GroupType → Group
end

/-- Field accessor for the parent of a group. -/
def Group.parent : Group → Option Group
  | .mk p _ _ => p

/-- Field accessor for the child list of a group. -/
def Group.children : Group → List Atom
  | .mk _ cs _ => cs

/-- Field accessor for the kind tag of a group. -/
def Group.group_type : Group → GroupType
  | .mk _ _ t => t

/-- `take_parent_and_add_child`: push the finished child onto the
parent's child list and return the parent. -/
def take_parent_and_add_child (parent : Group) (child : Atom) : Group :=
  match parent with
  | .mk p cs t => .mk p (cs ++ [child]) t

/-- The escape table of `StringLiteral::read_char`. -/
def escapeMap (c : Char) : Char :=
  if c = 'n' then '\n'
  else if c = 'r' then '\r'
  else if c = 't' then '\t'
  else if c = backslashChar then backslashChar
  else if c = quoteChar then quoteChar
  else if c = apostropheChar then apostropheChar
  else c

/-- Natural power on `Rat` by structural recursion (kernel-friendly). -/
def qpowNat (b : Rat) : Nat → Rat
  | 0 => 1
  | n + 1 => qpowNat b n * b

/-- `f64::powi` on the rational model of doubles. -/
def qpow (b : Rat) : Int → Rat
  | .ofNat n => qpowNat b n
  | .negSucc n => 1 / qpowNat b (n + 1)

/-- `Group::read_default`: classify an unstarted character.  The three
branches of the Rust code that create a leaf and immediately feed it the
same character (`Identifier`, `IntegerLiteral`, `Operator`) are inlined
with that first step unfolded; the theorems `read_default_identifier`,
`read_default_integer` and `read_default_operator` below prove the
inlining equal to calling the leaf's `read_char` on a fresh leaf. -/
def Group.read_default (self : Group) (c : Char) : Atom :=
  if c = '\x7b' then .group (.mk (some self) [] .curly)
  else if c = '(' then .group (.mk (some self) [] .curved)
  else if c = '[' then .group (.mk (some self) [] .square)
  else if c = quoteChar then .stringLiteral (some self) "" false
  else if isAsciiAlphabetic c then .identifier (some self) (String.push "" c)
  else if isAsciiDigit c then .integerLiteral (some self) (wrap64 (0 * 10 + digitVal c))
  else if OPERATOR_SYMBOL.contains c then .operator (some self) (String.push "" c)
  else if FINAL_OPERATOR.contains c then
    .group (take_parent_and_add_child self (.operator none (String.push "" c)))
  else .group self

/-- `Group`'s `Atom::read_char`: a root group always runs default
dispatch; a bracket group closes on its matching bracket (panicking,
i.e. `none`, if its parent was already taken) and otherwise runs default
dispatch. -/
def Group.read_char (self : Group) (c : Char) : Option Atom :=
  match self with
  | .mk parent children t =>
    match t with
    | .root => some (Group.read_default (.mk parent children .root) c)
    | .curly =>
      if c = '\x7d' then
        match parent with
        | some p => some (.group (take_parent_and_add_child p (.group (.mk none children .curly))))
        | none => none
      else some (Group.read_default (.mk parent children .curly) c)
    | .square =>
      if c = ']' then
        match parent with
        | some p => some (.group (take_parent_and_add_child p (.group (.mk none children .square))))
        | none => none
      else some (Group.read_default (.mk parent children .square) c)
    | .curved =>
      if c = ')' then
        match parent with
        | some p => some (.group (take_parent_and_add_child p (.group (.mk none children .curved))))
        | none => none
      else some (Group.read_default (.mk parent children .curved) c)

/-- `Identifier`'s `Atom::read_char`. -/
def Identifier.read_char (parent : Option Group) (value : String) (c : Char) : Option Atom :=
  if isAsciiAlphanumeric c then some (.identifier parent (value.push c))
  else
    match parent with
    | some p => Group.read_char (take_parent_and_add_child p (.identifier none value)) c
    | none => none

/-- `StringLiteral`'s `Atom::read_char`. -/
def StringLiteral.read_char (parent : Option Group) (value : String) (escaped : Bool)
    (c : Char) : Option Atom :=
  if escaped then some (.stringLiteral parent (value.push (escapeMap c)) false)
  else if c = backslashChar then some (.stringLiteral parent value true)
  else if c = quoteChar then
    match parent with
    | some p => some (.group (take_parent_and_add_child p (.stringLiteral none value escaped)))
    | none => none
  else some (.stringLiteral parent (value.push c) escaped)

/-- `IntegerLiteral`'s `Atom::read_char`.  `value * 10 + digit` wraps in
the `i64` range. -/
def IntegerLiteral.read_char (parent : Option Group) (value : Int) (c : Char) : Option Atom :=
  if isAsciiDigit c then some (.integerLiteral parent (wrap64 (value * 10 + digitVal c)))
  else if c = '.' then
    match parent with
    | some p => some (.numericLiteral (some p) (value : Rat) 1)
    | none => none
  else
    match parent with
    | some p => Group.read_char (take_parent_and_add_child p (.integerLiteral none value)) c
    | none => none

/-- `NumericLiteral`'s `Atom::read_char`. -/
def NumericLiteral.read_char (parent : Option Group) (value : Rat) (position : Int)
    (c : Char) : Option Atom :=
  if isAsciiDigit c then
    some (.numericLiteral parent (value + (digitVal c : Rat) / qpow 10 position)
      (wrap32 (position + 1)))
  else
    match parent with
    | some p => Group.read_char (take_parent_and_add_child p (.numericLiteral none value position)) c
    | none => none

/-- `Operator`'s `Atom::read_char`. -/
def Operator.read_char (parent : Option Group) (value : String) (c : Char) : Option Atom :=
  if OPERATOR_SYMBOL.contains c then some (.operator parent (value.push c))
  else if FINAL_OPERATOR.contains c then
    match parent with
    | some p => some (.group (take_parent_and_add_child p (.operator none (value.push c))))
    | none => none
  else
    match parent with
    | some p => Group.read_char (take_parent_and_add_child p (.operator none value)) c
    | none => none

/-- The dynamic dispatch of `Box<dyn Atom>::read_char`. -/
def Atom.read_char (a : Atom) (c : Char) : Option Atom :=
  match a with
  | .group g => Group.read_char g c
  | .identifier p v => Identifier.read_char p v c
  | .stringLiteral p v e => StringLiteral.read_char p v e c
  | .integerLiteral p v => IntegerLiteral.read_char p v c
  | .numericLiteral p v pos => NumericLiteral.read_char p v pos c
  | .operator p v => Operator.read_char p v c

/-- The drive loop of `main`: feed the characters one at a time; `none`
propagates a panic.  There is no end-of-stream step: the last active
atom is returned as is. -/
def runChars : Atom → List Char → Option Atom
  | a, [] => some a
  | a, c :: rest =>
    match Atom.read_char a c with
    | some b => runChars b rest
    | none => none

/-- The fresh root group `main` starts from. -/
def rootGroup : Group := .mk none [] .root

/-- Run the tokenizer from a fresh root group over a character stream. -/
def run (input : List Char) : Option Atom := runChars (.group rootGroup) input

/-- Append several children at the end of a group's child list. -/
def Group.appendChildren : Group → List Atom → Group
  | .mk p cs t, xs => .mk p (cs ++ xs) t

/-- The three bracket pairs. -/
inductive Brack : Type where
  | bcurly
  | bsquare
  | bcurved

/-- Opening character of a bracket pair. -/
def Brack.openChar : Brack → Char
  | .bcurly => '\x7b'
  | .bsquare => '['
  | .bcurved => '('

/-- Closing character of a bracket pair. -/
def Brack.closeChar : Brack → Char
  | .bcurly => '\x7d'
  | .bsquare => ']'
  | .bcurved => ')'

/-- The group kind a bracket pair produces. -/
def Brack.gtype : Brack → GroupType
  | .bcurly => .curly
  | .bsquare => .square
  | .bcurved => .curved

mutual
/-- A well-bracketed tree: one bracket pair around a forest. -/
inductive BTree : Type where
  | node : Brack → BForest → BTree

/-- A forest of well-bracketed trees. -/
inductive BForest : Type where
  | nil : BForest
  | cons : BTree → BForest → BForest
end

mutual
/-- The character stream of a bracket tree. -/
def BTree.flatten : BTree → List Char
  | .node b f => b.openChar :: (BForest.flattenAll f ++ [b.closeChar])

/-- The character stream of a bracket forest. -/
def BForest.flattenAll : BForest → List Char
  | .nil => []
  | .cons t f => BTree.flatten t ++ BForest.flattenAll f
end

mutual
/-- The finished group a bracket tree should tokenize to. -/
def BTree.toAtom : BTree → Atom
  | .node b f => .group (.mk none (BForest.toAtoms f) b.gtype)

/-- The finished child list a bracket forest should tokenize to. -/
def BForest.toAtoms : BForest → List Atom
  | .nil => []
  | .cons t f => BTree.toAtom t :: BForest.toAtoms f
end

/-- Child lists of the groups on the active parent chain, root first. -/
def Group.chainLists : Group → List (List Atom)
  | .mk none cs _ => [cs]
  | .mk (some p) cs _ => Group.chainLists p ++ [cs]

/-- Chain lists of an optional parent. -/
def optChains : Option Group → List (List Atom)
  | none => []
  | some g => g.chainLists

/-- Chain lists seen from the active atom: for a group, its own chain;
for a leaf, the chain of its parent. -/
def Atom.chainLists : Atom → List (List Atom)
  | .group g => g.chainLists
  | .identifier p _ => optChains p
  | .stringLiteral p _ _ => optChains p
  | .integerLiteral p _ => optChains p
  | .numericLiteral p _ _ => optChains p
  | .operator p _ => optChains p

/-- A child list grew by appending at most one element at the end. -/
def growsByAtMostOne (xs ys : List Atom) : Prop :=
  ys = xs ∨ ∃ z, ys = xs ++ [z]

/-- A child list grew by appending at most two elements at the end. -/
def growsByAtMostTwo (xs ys : List Atom) : Prop :=
  ys = xs ∨ (∃ z, ys = xs ++ [z]) ∨ ∃ z w, ys = xs ++ [z, w]

/-- On the part of the two chains that survives a step (aligned at the
root end), every child list only grows, by at most two elements. -/
def relChains (L Lp : List (List Atom)) : Prop :=
  List.Forall₂ growsByAtMostTwo (L.take Lp.length) (Lp.take L.length)

/-- Well-formedness of the active parent chain: a parentless group must
be the root; a group with a parent needs a well-formed parent. -/
def Group.wf : Group → Bool
  | .mk none _ .root => true
  | .mk none _ _ => false
  | .mk (some p) _ _ => Group.wf p

/-- Well-formedness of an active atom: a leaf must hold its parent. -/
def Atom.wfA : Atom → Bool
  | .group g => g.wf
  | .identifier none _ => false
  | .identifier (some p) _ => p.wf
  | .stringLiteral none _ _ => false
  | .stringLiteral (some p) _ _ => p.wf
  | .integerLiteral none _ => false
  | .integerLiteral (some p) _ => p.wf
  | .numericLiteral none _ _ => false
  | .numericLiteral (some p) _ _ => p.wf
  | .operator none _ => false
  | .operator (some p) _ => p.wf

/-- Whether the final state is a group (used to refute claims that a
redispatched character left the parent group active). -/
def isGroupActive : Option Atom → Bool
  | some (.group _) => true
  | _ => false

/-- Whether a character matches any class of a group's default dispatch
(bracket opener, quote, alphabetic, digit, operator symbol, terminal
operator). -/
def matchesDispatchClass (c : Char) : Bool :=
  c = '\x7b' || c = '(' || c = '[' || c = quoteChar || isAsciiAlphabetic c ||
    isAsciiDigit c || OPERATOR_SYMBOL.contains c || FINAL_OPERATOR.contains c

/-- Whether a character is the closing bracket of a group kind. -/
def isClosingFor (c : Char) : GroupType → Bool
  | .root => false
  | .curly => c = '\x7d'
  | .square => c = ']'
  | .curved => c = ')'

/-- The value of the final active atom when it is an operator. -/
def activeOperatorValue : Option Atom → Option String
  | some (.operator _ v) => some v
  | _ => none

/-- Number of children attached to the root group of the final state
(the first entry of the root-first chain list). -/
def rootChildCount : Option Atom → Option Nat
  | none => none
  | some a => some ((Atom.chainLists a).headD []).length

/-- The alphabetic branch of `read_default` agrees with feeding the
character to a freshly created `Identifier`, as the Rust code does. -/
theorem read_default_identifier (g : Group) (c : Char) (h : isAsciiAlphabetic c = true) :
    some (Group.read_default g c) = Identifier.read_char (some g) "" c := by
  have h1 : c ≠ '\x7b' := by rintro rfl; exact absurd h (by decide)
  have h2 : c ≠ '(' := by rintro rfl; exact absurd h (by decide)
  have h3 : c ≠ '[' := by rintro rfl; exact absurd h (by decide)
  have h4 : c ≠ quoteChar := by rintro rfl; exact absurd h (by decide)
  simp [Group.read_default, Identifier.read_char, isAsciiAlphanumeric, h, h1, h2, h3, h4]

/-- The digit branch of `read_default` agrees with feeding the character
to a freshly created `IntegerLiteral`, as the Rust code does. -/
theorem read_default_integer (g : Group) (c : Char) (h : isAsciiDigit c = true) :
    some (Group.read_default g c) = IntegerLiteral.read_char (some g) 0 c := by
  have h1 : c ≠ '\x7b' := by rintro rfl; exact absurd h (by decide)
  have h2 : c ≠ '(' := by rintro rfl; exact absurd h (by decide)
  have h3 : c ≠ '[' := by rintro rfl; exact absurd h (by decide)
  have h4 : c ≠ quoteChar := by rintro rfl; exact absurd h (by decide)
  have h5 : isAsciiAlphabetic c = false := by
    simp only [isAsciiDigit, decide_eq_true_eq] at h
    simp only [isAsciiAlphabetic, decide_eq_false_iff_not]
    omega
  simp [Group.read_default, IntegerLiteral.read_char, isAsciiAlphanumeric, h, h1, h2, h3, h4, h5]

/-- The operator branch of `read_default` agrees with feeding the
character to a freshly created `Operator`, as the Rust code does. -/
theorem read_default_operator (g : Group) (c : Char)
    (h : (OPERATOR_SYMBOL.contains c || FINAL_OPERATOR.contains c) = true) :
    some (Group.read_default g c) = Operator.read_char (some g) "" c := by
  have hm : c ∈ OPERATOR_SYMBOL ++ FINAL_OPERATOR := by
    rw [List.mem_append]
    rcases Bool.or_eq_true_iff.mp h with h' | h'
    · exact Or.inl (List.mem_of_elem_eq_true h')
    · exact Or.inr (List.mem_of_elem_eq_true h')
  fin_cases hm <;> rfl

/-- Claim C3 (confirmed): in-progress atoms at end of input are never
attached: the drive loop performs no end-of-stream step (`runChars a []`
returns the active atom unchanged), and after inputs "+-", a lone quote
plus "a", a lone "\x7b", and "12", the still-active operator, string
literal, group and integer literal are not in any child list: the root's
child list is empty in every case. -/
theorem c3_theorem :
    (∀ a : Atom, runChars a [] = some a)
    ∧ run (String.toList "+-") = some (.operator (some (.mk none [] .root)) "+-")
    ∧ run [quoteChar, 'a'] = some (.stringLiteral (some (.mk none [] .root)) "a" false)
    ∧ run (String.toList "\x7b") = some (.group (.mk (some (.mk none [] .root)) [] .curly))
    ∧ run (String.toList "12") = some (.integerLiteral (some (.mk none [] .root)) 12) :=
  ⟨fun _ => rfl, rfl, rfl, rfl, rfl⟩

/-- Claim C4 (confirmed): the string-literal escape behaviour.  With the
`escaped` flag set, the consumed character is mapped through the escape
table (`n`, `r`, `t`, backslash, double quote, single quote; anything
else unchanged), appended, and the flag cleared; with the flag clear, a
backslash only sets the flag, and a double quote finalizes the literal
and returns the parent without appending or redispatching the quote.  A
backslash-n sequence inside quotes stores an actual newline. -/
theorem c4_theorem :
    (∀ c : Char, c ≠ 'n' → c ≠ 'r' → c ≠ 't' → c ≠ backslashChar → c ≠ quoteChar →
      c ≠ apostropheChar → escapeMap c = c)
    ∧ (∀ (p : Option Group) (v : String) (c : Char),
        StringLiteral.read_char p v true c = some (.stringLiteral p (v.push (escapeMap c)) false))
    ∧ escapeMap 'n' = '\n' ∧ escapeMap 'r' = '\r' ∧ escapeMap 't' = '\t'
    ∧ escapeMap backslashChar = backslashChar ∧ escapeMap quoteChar = quoteChar
    ∧ escapeMap apostropheChar = apostropheChar
    ∧ (∀ (p : Option Group) (v : String),
        StringLiteral.read_char p v false backslashChar = some (.stringLiteral p v true))
    ∧ (∀ (g : Group) (v : String),
        StringLiteral.read_char (some g) v false quoteChar =
          some (.group (take_parent_and_add_child g (.stringLiteral none v false))))
    ∧ run [quoteChar, 'a', backslashChar, 'n', 'b', quoteChar] =
        some (.group (.mk none [.stringLiteral none "a\nb" false] .root)) := by
  refine ⟨fun c h1 h2 h3 h4 h5 h6 => ?_, fun p v c => rfl, rfl, rfl, rfl, rfl, rfl, rfl,
    fun p v => rfl, fun g v => rfl, rfl⟩
  simp [escapeMap, h1, h2, h3, h4, h5, h6]

/-- Claim C4 witness: the escape table maps an unknown escape character
to itself. -/
theorem c4_witness : escapeMap 'q' = 'q' :=
  c4_theorem.1 'q' (by decide) (by decide) (by decide) (by decide) (by decide) (by decide)

/-- Claim C6 (confirmed): an active operator consuming `;` appends the
`;` to its value and then finalizes and attaches to the parent, and the
input "+-;" yields exactly one attached operator token "+-;". -/
theorem c6_theorem :
    (∀ (g : Group) (v : String),
      Operator.read_char (some g) v ';' =
        some (.group (take_parent_and_add_child g (.operator none (v.push ';')))))
    ∧ run (String.toList "+-;") = some (.group (.mk none [.operator none "+-;"] .root)) :=
  ⟨fun _ _ => rfl, rfl⟩

/-- Claim C7 (confirmed): a character matching no dispatch class and not
the group's own closing bracket leaves the group exactly unchanged. -/
theorem c7_theorem (g : Group) (c : Char) (h1 : matchesDispatchClass c = false)
    (h2 : isClosingFor c g.group_type = false) :
    Group.read_char g c = some (.group g) := by
  obtain ⟨p, cs, t⟩ := g
  simp only [matchesDispatchClass, Bool.or_eq_false_iff, decide_eq_false_iff_not] at h1
  obtain ⟨⟨⟨⟨⟨⟨⟨n1, n2⟩, n3⟩, n4⟩, n5⟩, n6⟩, n7⟩, n8⟩ := h1
  have m7 : ¬ c ∈ OPERATOR_SYMBOL := by simpa using n7
  have m8 : ¬ c ∈ FINAL_OPERATOR := by simpa using n8
  cases t
  · simp [Group.read_char, Group.read_default, n1, n2, n3, n4, n5, n6, m7, m8]
  · simp only [Group.group_type, isClosingFor, decide_eq_false_iff_not] at h2
    simp [Group.read_char, Group.read_default, h2, n1, n2, n3, n4, n5, n6, m7, m8]
  · simp only [Group.group_type, isClosingFor, decide_eq_false_iff_not] at h2
    simp [Group.read_char, Group.read_default, h2, n1, n2, n3, n4, n5, n6, m7, m8]
  · simp only [Group.group_type, isClosingFor, decide_eq_false_iff_not] at h2
    simp [Group.read_char, Group.read_default, h2, n1, n2, n3, n4, n5, n6, m7, m8]

/-- Claim C7 witness: a mismatched closing bracket at the root is a
no-op. -/
theorem c7_witness : Group.read_char (.mk none [] .root) ']' = some (.group (.mk none [] .root)) :=
  c7_theorem (.mk none [] .root) ']' (by decide) (by decide)

/-- Claim C9 (confirmed): the integer accumulator update is
`value * 10 + digit` wrapped into the `i64` range (two's complement,
modulo `2^64`, no error), and the 19-digit input for `2^63` wraps to
`-2^63` with no failure. -/
theorem c9_theorem :
    (∀ (p : Option Group) (v : Int) (c : Char), isAsciiDigit c = true →
      IntegerLiteral.read_char p v c = some (.integerLiteral p (wrap64 (v * 10 + digitVal c))))
    ∧ (∀ z : Int, -9223372036854775808 ≤ wrap64 z ∧ wrap64 z ≤ 9223372036854775807 ∧
        (wrap64 z - z) % 18446744073709551616 = 0)
    ∧ run (String.toList "9223372036854775808") =
        some (.integerLiteral (some (.mk none [] .root)) (-9223372036854775808)) := by
  refine ⟨fun p v c h => by simp [IntegerLiteral.read_char, h], fun z => ?_, rfl⟩
  unfold wrap64
  omega

/-- Claim C9 witness: one digit step at a concrete state. -/
theorem c9_witness :
    IntegerLiteral.read_char none 922337203685477580 '8' =
      some (.integerLiteral none (wrap64 (922337203685477580 * 10 + digitVal '8'))) :=
  c9_theorem.1 none 922337203685477580 '8' (by decide)

/-- Claim C1 counterexample: after the input "1.2." the active atom is
not the parent group (as the claim's "silently dropped, creating no new
atom" would require) but a freshly created operator atom with value ".":
the redispatched second dot matches the operator-symbol class, since "."
is a member of `OPERATOR_SYMBOL`. -/
theorem c1_counterexample :
    isGroupActive (run (String.toList "1.2.")) = false
    ∧ activeOperatorValue (run (String.toList "1.2.")) = some "."
    ∧ OPERATOR_SYMBOL.contains '.' = true :=
  ⟨rfl, rfl, rfl⟩

/-- Claim C1 amended: a second `.` consumed by an active NumericLiteral
finalizes the number and attaches it to the parent, and the redispatched
`.` matches the operator-symbol class of the parent's default dispatch,
creating a new active Operator atom with value "." (it is not dropped).
On "1.2." this leaves the operator "." active over a root whose only
child is the numeric literal 1.2. -/
theorem c1_amended :
    (∀ (p : Group) (v : Rat) (pos : Int),
      NumericLiteral.read_char (some p) v pos '.' =
        some (.operator (some (take_parent_and_add_child p (.numericLiteral none v pos))) "."))
    ∧ run (String.toList "1.2.") =
        some (.operator (some (.mk none [.numericLiteral none (6/5 : Rat) 2] .root)) ".") := by
  constructor
  · intro p v pos
    obtain ⟨pp, cs, t⟩ := p
    cases t <;> rfl
  · have h : run (String.toList "1.2.") = some (.operator (some (.mk none
        [.numericLiteral none ((wrap64 (0 * 10 + digitVal '1') : Rat)
          + (digitVal '2' : Rat) / qpow 10 1) (wrap32 (1 + 1))] .root)) ".") := rfl
    rw [h]
    norm_num [show digitVal '1' = 1 from rfl, show digitVal '2' = 2 from rfl,
      show wrap64 1 = 1 from rfl, show wrap32 2 = 2 from rfl,
      show qpow 10 1 = 1 * 10 from rfl]

/-- Claim C5 counterexample: after the bare input "123.45" nothing at
all is attached to the root group (the claim says exactly one token is),
because the numeric literal is still in progress: the active atom is the
literal itself, not the root group. -/
theorem c5_counterexample :
    rootChildCount (run (String.toList "123.45")) = some 0
    ∧ isGroupActive (run (String.toList "123.45")) = false :=
  ⟨rfl, rfl⟩

/-- Claim C5 amended: the `.` after an integer is consumed by the
IntegerLiteral-to-NumericLiteral transition, seeding the numeric value
with the integer and fractional position 1; feeding "123.45" leaves a
single active in-progress NumericLiteral of value 123.45 (nothing yet
attached), and one further non-digit character (here a space) attaches
exactly one token: the NumericLiteral 123.45 — never an IntegerLiteral
123, Operator "." and IntegerLiteral 45. -/
theorem c5_amended :
    (∀ (g : Group) (v : Int),
      IntegerLiteral.read_char (some g) v '.' = some (.numericLiteral (some g) (v : Rat) 1))
    ∧ run (String.toList "123.45") =
        some (.numericLiteral (some (.mk none [] .root)) (2469/20 : Rat) 3)
    ∧ run (String.toList "123.45 ") =
        some (.group (.mk none [.numericLiteral none (2469/20 : Rat) 3] .root)) := by
  refine ⟨fun _ _ => rfl, ?_, ?_⟩
  · have h : run (String.toList "123.45") = some (.numericLiteral (some (.mk none [] .root))
        ((((123 : Int) : Rat) + (digitVal '4' : Rat) / qpow 10 1)
          + (digitVal '5' : Rat) / qpow 10 (wrap32 (1 + 1)))
        (wrap32 (wrap32 (1 + 1) + 1))) := rfl
    rw [h]
    norm_num [show digitVal '4' = 4 from rfl, show digitVal '5' = 5 from rfl,
      show wrap32 2 = 2 from rfl, show wrap32 3 = 3 from rfl,
      show qpow 10 1 = 1 * 10 from rfl, show qpow 10 2 = 1 * 10 * 10 from rfl]
  · have h : run (String.toList "123.45 ") = some (.group (.mk none
        [.numericLiteral none ((((123 : Int) : Rat) + (digitVal '4' : Rat) / qpow 10 1)
          + (digitVal '5' : Rat) / qpow 10 (wrap32 (1 + 1)))
        (wrap32 (wrap32 (1 + 1) + 1))] .root)) := rfl
    rw [h]
    norm_num [show digitVal '4' = 4 from rfl, show digitVal '5' = 5 from rfl,
      show wrap32 2 = 2 from rfl, show wrap32 3 = 3 from rfl,
      show qpow 10 1 = 1 * 10 from rfl, show qpow 10 2 = 1 * 10 * 10 from rfl]

/-- Reading an opening bracket in any group state starts a fresh empty
subgroup of the matching kind. -/
theorem open_step (g : Group) (b : Brack) :
    Group.read_char g b.openChar = some (.group (.mk (some g) [] b.gtype)) := by
  obtain ⟨p, cs, t⟩ := g
  cases t <;> cases b <;> rfl

/-- Reading the matching closing bracket freezes the subgroup and
attaches it to its parent, which becomes active again. -/
theorem close_step (g : Group) (cs : List Atom) (b : Brack) :
    Group.read_char (.mk (some g) cs b.gtype) b.closeChar =
      some (.group (take_parent_and_add_child g (.group (.mk none cs b.gtype)))) := by
  cases b <;> rfl

mutual
/-- Feeding the character stream of one bracket tree to an active group
appends exactly the corresponding finished group as a child. -/
theorem feedTree (t : BTree) (g : Group) (rest : List Char) :
    runChars (.group g) (BTree.flatten t ++ rest) =
      runChars (.group (take_parent_and_add_child g (BTree.toAtom t))) rest := by
  match t with
  | .node b f =>
    rw [BTree.flatten, List.cons_append]
    simp only [runChars, Atom.read_char, open_step]
    rw [List.append_assoc]
    rw [feedForest f (.mk (some g) [] b.gtype) ([b.closeChar] ++ rest)]
    simp only [Group.appendChildren, List.nil_append, List.singleton_append]
    simp only [runChars, Atom.read_char, close_step]
    simp only [BTree.toAtom]

/-- Feeding the character stream of a bracket forest to an active group
appends exactly the corresponding finished children, in order. -/
theorem feedForest (f : BForest) (g : Group) (rest : List Char) :
    runChars (.group g) (BForest.flattenAll f ++ rest) =
      runChars (.group (g.appendChildren (BForest.toAtoms f))) rest := by
  match f with
  | .nil =>
    obtain ⟨p, cs, t⟩ := g
    simp [BForest.flattenAll, BForest.toAtoms, Group.appendChildren]
  | .cons t f =>
    rw [BForest.flattenAll, List.append_assoc]
    rw [feedTree t g (BForest.flattenAll f ++ rest)]
    rw [feedForest f (take_parent_and_add_child g (BTree.toAtom t)) rest]
    obtain ⟨p, cs, ty⟩ := g
    simp [take_parent_and_add_child, Group.appendChildren, BForest.toAtoms]
end

/-- Claim C2 (confirmed): for any input consisting of balanced bracket
pairs (encoded as a forest of bracket trees), the final active atom is
the root group, and its children mirror the bracket structure exactly,
each group kind matching the bracket pair that produced it. -/
theorem c2_theorem (f : BForest) :
    run (BForest.flattenAll f) = some (.group (.mk none (BForest.toAtoms f) .root)) := by
  have h := feedForest f rootGroup []
  rw [List.append_nil] at h
  show runChars (.group rootGroup) (BForest.flattenAll f) = _
  rw [h]
  simp [runChars, rootGroup, Group.appendChildren]

/-- Attaching a child does not change well-formedness of the parent. -/
theorem wf_tpac (q : Group) (z : Atom) : (take_parent_and_add_child q z).wf = q.wf := by
  obtain ⟨p, cs, t⟩ := q
  cases p <;> cases t <;> rfl

/-- Default dispatch always yields a well-formed active atom (and never
unwraps a parent). -/
theorem wfA_read_default (g : Group) (c : Char) (h : g.wf = true) :
    (Group.read_default g c).wfA = true := by
  unfold Group.read_default
  repeat' split
  all_goals simp [Atom.wfA, Group.wf, wf_tpac, h]

/-- A well-formed active group consumes any character without panicking
and with a well-formed successor. -/
theorem wf_read_char_group (g : Group) (c : Char) (h : g.wf = true) :
    ∃ a', Group.read_char g c = some a' ∧ a'.wfA = true := by
  obtain ⟨p, cs, t⟩ := g
  cases t with
  | root => exact ⟨_, rfl, wfA_read_default _ c h⟩
  | curly =>
    by_cases hc : c = '\x7d'
    · subst hc
      cases p with
      | none => exact absurd h (by simp [Group.wf])
      | some q =>
        refine ⟨.group (take_parent_and_add_child q (.group (.mk none cs .curly))), rfl, ?_⟩
        simp only [Atom.wfA, wf_tpac]
        simpa [Group.wf] using h
    · refine ⟨Group.read_default (.mk p cs .curly) c, ?_, wfA_read_default _ c h⟩
      simp [Group.read_char, hc]
  | square =>
    by_cases hc : c = ']'
    · subst hc
      cases p with
      | none => exact absurd h (by simp [Group.wf])
      | some q =>
        refine ⟨.group (take_parent_and_add_child q (.group (.mk none cs .square))), rfl, ?_⟩
        simp only [Atom.wfA, wf_tpac]
        simpa [Group.wf] using h
    · refine ⟨Group.read_default (.mk p cs .square) c, ?_, wfA_read_default _ c h⟩
      simp [Group.read_char, hc]
  | curved =>
    by_cases hc : c = ')'
    · subst hc
      cases p with
      | none => exact absurd h (by simp [Group.wf])
      | some q =>
        refine ⟨.group (take_parent_and_add_child q (.group (.mk none cs .curved))), rfl, ?_⟩
        simp only [Atom.wfA, wf_tpac]
        simpa [Group.wf] using h
    · refine ⟨Group.read_default (.mk p cs .curved) c, ?_, wfA_read_default _ c h⟩
      simp [Group.read_char, hc]

/-- A well-formed active atom consumes any character without panicking
and with a well-formed successor. -/
theorem wfA_read_char (a : Atom) (c : Char) (h : a.wfA = true) :
    ∃ a', Atom.read_char a c = some a' ∧ a'.wfA = true := by
  cases a with
  | group g => exact wf_read_char_group g c h
  | identifier p v =>
    cases p with
    | none => exact absurd h (by simp [Atom.wfA])
    | some q =>
      have hq : q.wf = true := by simpa [Atom.wfA] using h
      by_cases hc : isAsciiAlphanumeric c
      · refine ⟨.identifier (some q) (v.push c), ?_, by simpa [Atom.wfA] using hq⟩
        simp [Atom.read_char, Identifier.read_char, hc]
      · obtain ⟨a', ha, hw⟩ := wf_read_char_group (take_parent_and_add_child q (.identifier none v)) c
          (by rw [wf_tpac]; exact hq)
        refine ⟨a', ?_, hw⟩
        simp [Atom.read_char, Identifier.read_char, hc, ha]
  | stringLiteral p v e =>
    cases p with
    | none => exact absurd h (by simp [Atom.wfA])
    | some q =>
      have hq : q.wf = true := by simpa [Atom.wfA] using h
      cases e with
      | true =>
        exact ⟨.stringLiteral (some q) (v.push (escapeMap c)) false, rfl,
          by simpa [Atom.wfA] using hq⟩
      | false =>
        by_cases hb : c = backslashChar
        · subst hb
          exact ⟨.stringLiteral (some q) v true, rfl, by simpa [Atom.wfA] using hq⟩
        · by_cases hs : c = quoteChar
          · subst hs
            refine ⟨.group (take_parent_and_add_child q (.stringLiteral none v false)), rfl, ?_⟩
            simpa [Atom.wfA, wf_tpac] using hq
          · refine ⟨.stringLiteral (some q) (v.push c) false, ?_, by simpa [Atom.wfA] using hq⟩
            simp [Atom.read_char, StringLiteral.read_char, hb, hs]
  | integerLiteral p v =>
    cases p with
    | none => exact absurd h (by simp [Atom.wfA])
    | some q =>
      have hq : q.wf = true := by simpa [Atom.wfA] using h
      by_cases hc : isAsciiDigit c
      · refine ⟨.integerLiteral (some q) (wrap64 (v * 10 + digitVal c)), ?_,
          by simpa [Atom.wfA] using hq⟩
        simp [Atom.read_char, IntegerLiteral.read_char, hc]
      · by_cases hd : c = '.'
        · subst hd
          exact ⟨.numericLiteral (some q) (v : Rat) 1, rfl, by simpa [Atom.wfA] using hq⟩
        · obtain ⟨a', ha, hw⟩ := wf_read_char_group
            (take_parent_and_add_child q (.integerLiteral none v)) c (by rw [wf_tpac]; exact hq)
          refine ⟨a', ?_, hw⟩
          simp [Atom.read_char, IntegerLiteral.read_char, hc, hd, ha]
  | numericLiteral p v pos =>
    cases p with
    | none => exact absurd h (by simp [Atom.wfA])
    | some q =>
      have hq : q.wf = true := by simpa [Atom.wfA] using h
      by_cases hc : isAsciiDigit c
      · refine ⟨.numericLiteral (some q) (v + (digitVal c : Rat) / qpow 10 pos) (wrap32 (pos + 1)),
          ?_, by simpa [Atom.wfA] using hq⟩
        simp [Atom.read_char, NumericLiteral.read_char, hc]
      · obtain ⟨a', ha, hw⟩ := wf_read_char_group
          (take_parent_and_add_child q (.numericLiteral none v pos)) c (by rw [wf_tpac]; exact hq)
        refine ⟨a', ?_, hw⟩
        simp [Atom.read_char, NumericLiteral.read_char, hc, ha]
  | operator p v =>
    cases p with
    | none => exact absurd h (by simp [Atom.wfA])
    | some q =>
      have hq : q.wf = true := by simpa [Atom.wfA] using h
      by_cases hc : c ∈ OPERATOR_SYMBOL
      · refine ⟨.operator (some q) (v.push c), ?_, by simpa [Atom.wfA] using hq⟩
        simp [Atom.read_char, Operator.read_char, hc]
      · by_cases hf : c ∈ FINAL_OPERATOR
        · refine ⟨.group (take_parent_and_add_child q (.operator none (v.push c))), ?_, ?_⟩
          · simp [Atom.read_char, Operator.read_char, hc, hf]
          · simpa [Atom.wfA, wf_tpac] using hq
        · obtain ⟨a', ha, hw⟩ := wf_read_char_group
            (take_parent_and_add_child q (.operator none v)) c (by rw [wf_tpac]; exact hq)
          refine ⟨a', ?_, hw⟩
          simp [Atom.read_char, Operator.read_char, hc, hf, ha]

/-- Well-formedness is preserved along any run, and no step panics. -/
theorem runChars_wf (cs : List Char) :
    ∀ a : Atom, a.wfA = true → (runChars a cs).isSome = true := by
  induction cs with
  | nil => intro a _; rfl
  | cons c rest ih =>
    intro a h
    obtain ⟨a', ha, hw⟩ := wfA_read_char a c h
    simp only [runChars, ha]
    exact ih a' hw

/-- Claim C10 (confirmed): starting from the fresh root group, every
`unwrap` of a parent during any run succeeds: the run never panics,
because every active non-root atom holds `some` parent (the parent is
taken exactly once, at finalize) and the root never reaches a finalize
branch. -/
theorem c10_theorem (input : List Char) : (run input).isSome = true :=
  runChars_wf input (.group rootGroup) rfl

/-- Chain lists of a group, split at the last entry. -/
theorem chainLists_mk (p : Option Group) (cs : List Atom) (t : GroupType) :
    Group.chainLists (.mk p cs t) = optChains p ++ [cs] := by
  cases p <;> rfl

/-- Growth by at most two is reflexive. -/
theorem gBy2_refl (xs : List Atom) : growsByAtMostTwo xs xs := Or.inl rfl

/-- Growth by at most one implies growth by at most two. -/
theorem gBy2_of_gBy1 {xs ys : List Atom} (h : growsByAtMostOne xs ys) :
    growsByAtMostTwo xs ys := by
  rcases h with h | ⟨z, h⟩
  · exact Or.inl h
  · exact Or.inr (Or.inl ⟨z, h⟩)

/-- One further appended element on top of growth by at most one. -/
theorem gBy2_snoc_of_gBy1 {xs ys : List Atom} (z : Atom) (h : growsByAtMostOne xs ys) :
    growsByAtMostTwo xs (ys ++ [z]) := by
  rcases h with h | ⟨w, h⟩
  · exact Or.inr (Or.inl ⟨z, by rw [h]⟩)
  · exact Or.inr (Or.inr ⟨w, z, by rw [h, List.append_assoc]; rfl⟩)

/-- `Forall₂` of growth-by-at-most-two on equal lists. -/
theorem forall2_refl (R : List (List Atom)) : List.Forall₂ growsByAtMostTwo R R := by
  induction R with
  | nil => exact List.Forall₂.nil
  | cons x xs ih => exact List.Forall₂.cons (gBy2_refl x) ih

/-- `Forall₂` of growth-by-at-most-two with one changed last entry. -/
theorem forall2_snoc (R : List (List Atom)) (u v : List Atom) (h : growsByAtMostTwo u v) :
    List.Forall₂ growsByAtMostTwo (R ++ [u]) (R ++ [v]) := by
  induction R with
  | nil => exact List.Forall₂.cons h List.Forall₂.nil
  | cons x xs ih => exact List.Forall₂.cons (gBy2_refl x) ih

/-- `relChains` is reflexive. -/
theorem relChains_refl (L : List (List Atom)) : relChains L L := by
  unfold relChains
  rw [List.take_length]
  exact forall2_refl L

/-- `relChains` for a step keeping the chain shape: last entry grows. -/
theorem relChains_same_snoc (R : List (List Atom)) (u v : List Atom)
    (h : growsByAtMostTwo u v) : relChains (R ++ [u]) (R ++ [v]) := by
  unfold relChains
  rw [List.take_of_length_le (by simp : (R ++ [u]).length ≤ (R ++ [v]).length),
    List.take_of_length_le (by simp : (R ++ [v]).length ≤ (R ++ [u]).length)]
  exact forall2_snoc R u v h

/-- `relChains` for a step opening a subgroup: the last surviving entry
grows, and a fresh empty list is pushed beyond the common part. -/
theorem relChains_push (R : List (List Atom)) (u v : List Atom)
    (h : growsByAtMostTwo u v) : relChains (R ++ [u]) (R ++ [v] ++ [[]]) := by
  have hlen : (R ++ [u]).length = (R ++ [v]).length := by simp
  unfold relChains
  have e1 : List.take (R ++ [v] ++ [[]]).length (R ++ [u]) = R ++ [u] :=
    List.take_of_length_le (by simp)
  rw [e1, hlen, List.take_left]
  exact forall2_snoc R u v h

/-- `relChains` for a step closing a subgroup: the innermost list is
frozen away and the list below it grows. -/
theorem relChains_pop (R : List (List Atom)) (u mid v : List Atom)
    (h : growsByAtMostTwo u v) : relChains (R ++ [u] ++ [mid]) (R ++ [v]) := by
  have hlen : (R ++ [v]).length = (R ++ [u]).length := by simp
  unfold relChains
  rw [List.take_of_length_le
      (by simp only [List.length_append, List.length_cons, List.length_nil]; omega :
        (R ++ [v]).length ≤ (R ++ [u] ++ [mid]).length),
    hlen, List.take_left]
  exact forall2_snoc R u v h

/-- Default dispatch changes the chains by at most: growing the last
surviving entry (by the pending finalized atom and possibly, for the
terminal operator, one more), or additionally pushing a fresh empty
subgroup list. -/
theorem relChains_read_default (pp : Option Group) (base cs : List Atom) (t : GroupType)
    (c : Char) (h : growsByAtMostOne base cs) :
    relChains (optChains pp ++ [base]) (Atom.chainLists (Group.read_default (.mk pp cs t) c)) := by
  unfold Group.read_default
  repeat' split
  all_goals simp only [Atom.chainLists, optChains, chainLists_mk, take_parent_and_add_child]
  all_goals
    first
    | exact relChains_push _ _ _ (gBy2_of_gBy1 h)
    | exact relChains_same_snoc _ _ _ (gBy2_snoc_of_gBy1 _ h)
    | exact relChains_same_snoc _ _ _ (gBy2_of_gBy1 h)

/-- A full group step (closing bracket or default dispatch) relates the
chains, relative to a base list the last entry may already have grown
from by one pending finalized atom. -/
theorem relChains_read_char_mk (pp : Option Group) (cs : List Atom) (t : GroupType)
    (base : List Atom) (c : Char) (a' : Atom) (hb : growsByAtMostOne base cs)
    (h : Group.read_char (.mk pp cs t) c = some a') :
    relChains (optChains pp ++ [base]) a'.chainLists := by
  cases t with
  | root =>
    simp only [Group.read_char, Option.some.injEq] at h
    subst h
    exact relChains_read_default pp base cs .root c hb
  | curly =>
    by_cases hc : c = '\x7d'
    · subst hc
      cases pp with
      | none => simp [Group.read_char] at h
      | some q =>
        simp [Group.read_char] at h
        subst h
        obtain ⟨qp, qcs, qt⟩ := q
        simp only [Atom.chainLists, optChains, chainLists_mk, take_parent_and_add_child]
        exact relChains_pop _ _ _ _ (Or.inr (Or.inl ⟨_, rfl⟩))
    · simp only [Group.read_char, if_neg hc, Option.some.injEq] at h
      subst h
      exact relChains_read_default pp base cs .curly c hb
  | square =>
    by_cases hc : c = ']'
    · subst hc
      cases pp with
      | none => simp [Group.read_char] at h
      | some q =>
        simp [Group.read_char] at h
        subst h
        obtain ⟨qp, qcs, qt⟩ := q
        simp only [Atom.chainLists, optChains, chainLists_mk, take_parent_and_add_child]
        exact relChains_pop _ _ _ _ (Or.inr (Or.inl ⟨_, rfl⟩))
    · simp only [Group.read_char, if_neg hc, Option.some.injEq] at h
      subst h
      exact relChains_read_default pp base cs .square c hb
  | curved =>
    by_cases hc : c = ')'
    · subst hc
      cases pp with
      | none => simp [Group.read_char] at h
      | some q =>
        simp [Group.read_char] at h
        subst h
        obtain ⟨qp, qcs, qt⟩ := q
        simp only [Atom.chainLists, optChains, chainLists_mk, take_parent_and_add_child]
        exact relChains_pop _ _ _ _ (Or.inr (Or.inl ⟨_, rfl⟩))
    · simp only [Group.read_char, if_neg hc, Option.some.injEq] at h
      subst h
      exact relChains_read_default pp base cs .curved c hb

/-- Claim C8 counterexample: one consume step can append two atoms at
once.  With an identifier active over an empty root, consuming `;`
finalizes the identifier into the root and the redispatched `;`
immediately creates and finalizes a one-character operator: the root's
child list goes from zero straight to two children, refuting "appends
exactly one finished atom". -/
theorem c8_counterexample :
    Atom.read_char (.identifier (some (.mk none [] .root)) "a") ';' =
      some (.group (.mk none [.identifier none "a", .operator none ";"] .root))
    ∧ ¬ growsByAtMostOne [] [Atom.identifier none "a", Atom.operator none ";"] := by
  refine ⟨rfl, ?_⟩
  rintro (h | ⟨z, h⟩)
  · exact absurd h (by simp)
  · have hl := congrArg List.length h
    simp at hl

/-- Claim C8 amended: along every consume step, each child list on the
surviving parent chain (aligned at the root) only grows, by appending at
most two finished atoms at its end (two exactly when a finalizer
redispatches the terminal operator character, which immediately attaches
a one-character operator as well); no child is ever removed or
reordered. -/
theorem c8_amended (a : Atom) (c : Char) (a' : Atom) (h : Atom.read_char a c = some a') :
    relChains a.chainLists a'.chainLists := by
  cases a with
  | group g =>
    obtain ⟨p, cs, t⟩ := g
    have hr := relChains_read_char_mk p cs t cs c a' (Or.inl rfl)
      (by simpa [Atom.read_char] using h)
    simpa [Atom.chainLists, chainLists_mk] using hr
  | identifier p v =>
    by_cases hc : isAsciiAlphanumeric c
    · simp [Atom.read_char, Identifier.read_char, hc] at h
      subst h
      exact relChains_refl _
    · cases p with
      | none => simp [Atom.read_char, Identifier.read_char, hc] at h
      | some q =>
        obtain ⟨qp, qcs, qt⟩ := q
        have h' : Group.read_char (.mk qp (qcs ++ [Atom.identifier none v]) qt) c = some a' := by
          simpa [Atom.read_char, Identifier.read_char, hc, take_parent_and_add_child] using h
        have hr := relChains_read_char_mk qp (qcs ++ [.identifier none v]) qt qcs c a'
          (Or.inr ⟨_, rfl⟩) h'
        simpa [Atom.chainLists, optChains, chainLists_mk] using hr
  | stringLiteral p v e =>
    cases e with
    | true =>
      rw [show Atom.read_char (.stringLiteral p v true) c =
          some (.stringLiteral p (v.push (escapeMap c)) false) from rfl,
        Option.some.injEq] at h
      subst h
      exact relChains_refl _
    | false =>
      by_cases hb : c = backslashChar
      · subst hb
        rw [show Atom.read_char (.stringLiteral p v false) backslashChar =
            some (.stringLiteral p v true) from rfl, Option.some.injEq] at h
        subst h
        exact relChains_refl _
      · by_cases hs : c = quoteChar
        · subst hs
          cases p with
          | none =>
            rw [show Atom.read_char (.stringLiteral none v false) quoteChar = none from rfl] at h
            exact absurd h (by simp)
          | some q =>
            rw [show Atom.read_char (.stringLiteral (some q) v false) quoteChar =
                some (.group (take_parent_and_add_child q (.stringLiteral none v false)))
                from rfl, Option.some.injEq] at h
            subst h
            obtain ⟨qp, qcs, qt⟩ := q
            simp only [Atom.chainLists, optChains, chainLists_mk, take_parent_and_add_child]
            exact relChains_same_snoc _ _ _ (Or.inr (Or.inl ⟨_, rfl⟩))
        · simp [Atom.read_char, StringLiteral.read_char, hb, hs] at h
          subst h
          exact relChains_refl _
  | integerLiteral p v =>
    by_cases hc : isAsciiDigit c
    · simp [Atom.read_char, IntegerLiteral.read_char, hc] at h
      subst h
      exact relChains_refl _
    · by_cases hd : c = '.'
      · subst hd
        cases p with
        | none =>
          rw [show Atom.read_char (.integerLiteral none v) '.' = none from rfl] at h
          exact absurd h (by simp)
        | some q =>
          rw [show Atom.read_char (.integerLiteral (some q) v) '.' =
              some (.numericLiteral (some q) (v : Rat) 1) from rfl, Option.some.injEq] at h
          subst h
          exact relChains_refl _
      · cases p with
        | none => simp [Atom.read_char, IntegerLiteral.read_char, hc, hd] at h
        | some q =>
          obtain ⟨qp, qcs, qt⟩ := q
          have h' : Group.read_char (.mk qp (qcs ++ [Atom.integerLiteral none v]) qt) c
              = some a' := by
            simpa [Atom.read_char, IntegerLiteral.read_char, hc, hd,
              take_parent_and_add_child] using h
          have hr := relChains_read_char_mk qp (qcs ++ [.integerLiteral none v]) qt qcs c a'
            (Or.inr ⟨_, rfl⟩) h'
          simpa [Atom.chainLists, optChains, chainLists_mk] using hr
  | numericLiteral p v pos =>
    by_cases hc : isAsciiDigit c
    · simp [Atom.read_char, NumericLiteral.read_char, hc] at h
      subst h
      exact relChains_refl _
    · cases p with
      | none => simp [Atom.read_char, NumericLiteral.read_char, hc] at h
      | some q =>
        obtain ⟨qp, qcs, qt⟩ := q
        have h' : Group.read_char (.mk qp (qcs ++ [Atom.numericLiteral none v pos]) qt) c
            = some a' := by
          simpa [Atom.read_char, NumericLiteral.read_char, hc, take_parent_and_add_child] using h
        have hr := relChains_read_char_mk qp (qcs ++ [.numericLiteral none v pos]) qt qcs c a'
          (Or.inr ⟨_, rfl⟩) h'
        simpa [Atom.chainLists, optChains, chainLists_mk] using hr
  | operator p v =>
    by_cases hc : c ∈ OPERATOR_SYMBOL
    · simp [Atom.read_char, Operator.read_char, hc] at h
      subst h
      exact relChains_refl _
    · by_cases hf : c ∈ FINAL_OPERATOR
      · cases p with
        | none => simp [Atom.read_char, Operator.read_char, hc, hf] at h
        | some q =>
          simp [Atom.read_char, Operator.read_char, hc, hf] at h
          subst h
          obtain ⟨qp, qcs, qt⟩ := q
          simp only [Atom.chainLists, optChains, chainLists_mk, take_parent_and_add_child]
          exact relChains_same_snoc _ _ _ (Or.inr (Or.inl ⟨_, rfl⟩))
      · cases p with
        | none => simp [Atom.read_char, Operator.read_char, hc, hf] at h
        | some q =>
          obtain ⟨qp, qcs, qt⟩ := q
          have h' : Group.read_char (.mk qp (qcs ++ [Atom.operator none v]) qt) c = some a' := by
            simpa [Atom.read_char, Operator.read_char, hc, hf, take_parent_and_add_child] using h
          have hr := relChains_read_char_mk qp (qcs ++ [.operator none v]) qt qcs c a'
            (Or.inr ⟨_, rfl⟩) h'
          simpa [Atom.chainLists, optChains, chainLists_mk] using hr

/-- Claim C8 witness: the amended step relation at a concrete step (root
group consuming an alphabetic character). -/
theorem c8_witness :
    relChains (Atom.chainLists (.group (.mk none [] .root)))
      (Atom.chainLists (.identifier (some (.mk none [] .root)) "x")) :=
  c8_amended (.group (.mk none [] .root)) 'x' (.identifier (some (.mk none [] .root)) "x") rfl

end Sink
